import Mathlib

/-!
Verification of the tpacloudbox backend (`src/server.js`).

The development shallowly embeds the server's core functions: the
path-safety layer (`safePath`), the unique-name allocator
(`getUniquePath`), size formatting (`formatSize`), the admin gate
(`checkIsAdmin` and the `isAdmin`-guarded mutating routes), the
PIN-locked listing route (`GET /api/files`), and the recursive search
described by the specification (the search endpoint itself is not part
of `src/server.js`; see `searchList`).

Modeling conventions:
- JavaScript strings are Lean `String`s; all character-level work is done
  on `String.data : List Char`.
- Node's `path.posix` semantics (`join`, `normalize`, `dirname`,
  `basename`, `extname`, `parse`) are implemented below.  One divergence
  is documented at `normalizeL`: Node preserves a trailing slash while
  this model drops it; a trailing slash never changes which filesystem
  object a path denotes, and no theorem below depends on it.
- JavaScript numbers are modeled as exact arithmetic over `Nat`/`Rat`:
  `Math.floor(Math.log b / Math.log 1024)` becomes `Nat.log 1024 b` and
  `parseFloat(x.toFixed(2))` becomes exact half-up rounding to
  hundredths; binary64 rounding error is idealized away.
- The filesystem is explicit data: a list of existing paths (`FsSet`)
  for `fs.pathExists`/mutating routes, and an association table
  (`DirFs`) for `fs.readdir` plus per-entry `fs.stat` results.
-/

namespace CloudBox

/-! ### Character and string helpers -/

/-- ASCII lower-casing of one character (models `String.prototype.toLowerCase`
for the ASCII range used by the claims). -/
def lowChar (c : Char) : Char :=
  if 'A' ≤ c ∧ c ≤ 'Z' then Char.ofNat (c.toNat + 32) else c

/-- Lower-case a character list. -/
def lowL (l : List Char) : List Char := l.map lowChar

/-- Substring test `containsL needle hay`: does `hay` contain `needle` as a contiguous
substring?  Models JavaScript `String.prototype.includes`. -/
def containsL (needle : List Char) : List Char → Bool
  | [] => List.isPrefixOf needle []
  | c :: rest => List.isPrefixOf needle (c :: rest) || containsL needle rest

/-- The character for a decimal digit `d < 10`. -/
def digitChar (d : Nat) : Char := Char.ofNat (48 + d)

/-- Fuel-driven decimal rendering: digits of `n` followed by `acc`.
Fuel `n + 1` always suffices. -/
def natChars : Nat → Nat → List Char → List Char
  | 0, _, acc => acc
  | fuel + 1, n, acc =>
    if n < 10 then digitChar n :: acc
    else natChars fuel (n / 10) (digitChar (n % 10) :: acc)

/-- Decimal rendering of a natural number, as produced by a JavaScript
template literal `${n}` for a nonnegative integer. -/
def natToString (n : Nat) : String := ⟨natChars (n + 1) n []⟩

/-- Left inverse of decimal rendering, used to prove it injective. -/
def charsVal (l : List Char) : Nat :=
  l.foldl (fun a c => 10 * a + (c.toNat - 48)) 0

/-! ### `decodeURIComponent` -/

/-- Value of a hexadecimal digit character. -/
def hexVal (c : Char) : Option Nat :=
  if '0' ≤ c ∧ c ≤ '9' then some (c.toNat - 48)
  else if 'A' ≤ c ∧ c ≤ 'F' then some (c.toNat - 55)
  else if 'a' ≤ c ∧ c ≤ 'f' then some (c.toNat - 87)
  else none

/-- Read one `%XY` escape from the front of the list, returning the byte
and the remaining characters. -/
def readHexByte : List Char → Option (Nat × List Char)
  | '%' :: c1 :: c2 :: rest =>
    match hexVal c1, hexVal c2 with
    | some h, some l => some (16 * h + l, rest)
    | _, _ => none
  | _ => none

/-- Is `b` a UTF-8 continuation byte? -/
def contByte (b : Nat) : Bool := decide (0x80 ≤ b ∧ b ≤ 0xBF)

/-- One step of `decodeURIComponent`: fuel-driven scan.  A plain character
passes through; `%XY` escapes must form a valid UTF-8 byte sequence, with
every continuation byte itself written as a `%XY` escape (this is the
ECMAScript `Decode` algorithm); any malformed input is a `URIError`,
modeled as `none`.  The fuel starts at the input length and each step
consumes at least one character, so the `fuel = 0` branch is unreachable. -/
def percDecodeAux : Nat → List Char → Option (List Char)
  | _, [] => some []
  | 0, _ :: _ => none
  | fuel + 1, c :: rest =>
    if c = '%' then
      match readHexByte (c :: rest) with
      | none => none
      | some (b1, r1) =>
        if b1 < 0x80 then
          match percDecodeAux fuel r1 with
          | none => none
          | some tail => some (Char.ofNat b1 :: tail)
        else if 0xC2 ≤ b1 ∧ b1 ≤ 0xDF then
          match readHexByte r1 with
          | none => none
          | some (b2, r2) =>
            if contByte b2 then
              match percDecodeAux fuel r2 with
              | none => none
              | some tail => some (Char.ofNat ((b1 - 0xC0) * 64 + (b2 - 0x80)) :: tail)
            else none
        else if 0xE0 ≤ b1 ∧ b1 ≤ 0xEF then
          match readHexByte r1 with
          | none => none
          | some (b2, r2) =>
            match readHexByte r2 with
            | none => none
            | some (b3, r3) =>
              let cp := (b1 - 0xE0) * 4096 + (b2 - 0x80) * 64 + (b3 - 0x80)
              if contByte b2 ∧ contByte b3 ∧ 0x800 ≤ cp ∧ ¬(0xD800 ≤ cp ∧ cp ≤ 0xDFFF) then
                match percDecodeAux fuel r3 with
                | none => none
                | some tail => some (Char.ofNat cp :: tail)
              else none
        else if 0xF0 ≤ b1 ∧ b1 ≤ 0xF4 then
          match readHexByte r1 with
          | none => none
          | some (b2, r2) =>
            match readHexByte r2 with
            | none => none
            | some (b3, r3) =>
              match readHexByte r3 with
              | none => none
              | some (b4, r4) =>
                let cp := (b1 - 0xF0) * 262144 + (b2 - 0x80) * 4096 +
                  (b3 - 0x80) * 64 + (b4 - 0x80)
                if contByte b2 ∧ contByte b3 ∧ contByte b4 ∧
                    0x10000 ≤ cp ∧ cp ≤ 0x10FFFF then
                  match percDecodeAux fuel r4 with
                  | none => none
                  | some tail => some (Char.ofNat cp :: tail)
                else none
        else none
    else
      match percDecodeAux fuel rest with
      | none => none
      | some tail => some (c :: tail)

/-- Model of `decodeURIComponent`, with `none` standing for a thrown `URIError`. -/
def decodeURIComp (s : String) : Option String :=
  (percDecodeAux s.data.length s.data).map (fun l => (⟨l⟩ : String))

/-! ### Node `path.posix` -/

/-- Split a character list on a separator, like `'a/b'.split('/')`:
`splitCh '/' "a//b" = ["a", "", "b"]` and `splitCh '/' "" = [""]`. -/
def splitCh (sep : Char) : List Char → List (List Char)
  | [] => [[]]
  | c :: rest =>
    let r := splitCh sep rest
    if c = sep then [] :: r
    else
      match r with
      | [] => [[c]]
      | h :: t => (c :: h) :: t

/-- Interleave `'/'` between segments, like `segments.join('/')`. -/
def joinSegs : List (List Char) → List Char
  | [] => []
  | [s] => s
  | s :: rest => s ++ '/' :: joinSegs rest

/-- Does the path start with `'/'`? -/
def isAbsL (l : List Char) : Bool :=
  match l with
  | c :: _ => c = '/'
  | [] => false

/-- One step of Node's path normalization over a stack of kept segments
(head = most recent).  Empty and `.` segments are dropped; `..` pops the
previous segment, except that above the root it is dropped for absolute
paths and kept for relative ones. -/
def normStep (isAbs : Bool) (stack : List (List Char)) (seg : List Char) : List (List Char) :=
  if seg = [] ∨ seg = ['.'] then stack
  else if seg = ['.', '.'] then
    match stack with
    | [] => if isAbs then [] else [seg]
    | top :: rest => if top = ['.', '.'] then (if isAbs then stack else seg :: stack) else rest
  else seg :: stack

/-- The kept-segment stack after processing all segments. -/
def normStack (isAbs : Bool) (segs : List (List Char)) : List (List Char) :=
  segs.foldl (normStep isAbs) []

/-- Node `path.posix.normalize` on character lists.  Divergence from Node
(documented in the header): a trailing slash is not preserved. -/
def normalizeL (l : List Char) : List Char :=
  let isAbs := isAbsL l
  let out := (normStack isAbs (splitCh '/' l)).reverse
  if isAbs then '/' :: joinSegs out
  else if out = [] then ['.'] else joinSegs out

/-- Node `path.posix.normalize` on strings. -/
def normalizePosix (s : String) : String := ⟨normalizeL s.data⟩

/-- Node `path.posix.join` on character lists: drop empty parts, join the
rest with `'/'`, and normalize; the empty join is `"."`. -/
def joinL (parts : List (List Char)) : List Char :=
  let joined := joinSegs (parts.filter (fun p => p ≠ []))
  if joined = [] then ['.'] else normalizeL joined

/-- Node `path.posix.join` on strings. -/
def joinPosix (parts : List String) : String := ⟨joinL (parts.map String.data)⟩

/-- Node `path.posix.dirname` on character lists: strip trailing slashes,
strip the final segment, strip the separator run before it; an exhausted
input gives `"/"` (absolute) or `"."` (relative). -/
def dirnameL (l : List Char) : List Char :=
  let isAbs := isAbsL l
  let rev3 := ((l.reverse.dropWhile (fun c => c = '/')).dropWhile
    (fun c => c ≠ '/')).dropWhile (fun c => c = '/')
  if rev3 = [] then (if isAbs then ['/'] else ['.']) else rev3.reverse

/-- Node `path.posix.basename` on character lists: the final segment after
stripping trailing slashes. -/
def basenameL (l : List Char) : List Char :=
  ((l.reverse.dropWhile (fun c => c = '/')).takeWhile (fun c => c ≠ '/')).reverse

/-- The extension of a basename: from the last `'.'`, unless that dot is
the leading character or the basename is `".."`. -/
def extOfBase (base : List Char) : List Char :=
  if base = ['.', '.'] then []
  else
    let revB := base.reverse
    match revB.dropWhile (fun c => c ≠ '.') with
    | [] => []
    | _ :: before =>
      if before = [] then [] else '.' :: (revB.takeWhile (fun c => c ≠ '.')).reverse

/-- Node `path.posix.extname` on character lists. -/
def extnameL (l : List Char) : List Char := extOfBase (basenameL l)

/-- The `base` field of Node `path.posix.parse`: trailing slashes are
ignored, then the final segment is taken. -/
def baseOf (l : List Char) : List Char := basenameL l

/-- The `dir` field of Node `path.posix.parse`: everything before the last
separator of the slash-trimmed path (exactly one separator is dropped);
`'/'` when only the root remains, `""` when there is no separator. -/
def dirOf (l : List Char) : List Char :=
  let isAbs := isAbsL l
  let restRev := (l.reverse.dropWhile (fun c => c = '/')).dropWhile (fun c => c ≠ '/')
  match restRev with
  | [] => if isAbs then ['/'] else []
  | _ :: t => if t = [] ∧ isAbs then ['/'] else t.reverse

/-- The `ext` field of Node `path.posix.parse`. -/
def extOf (l : List Char) : List Char := extOfBase (baseOf l)

/-- The `name` field of Node `path.posix.parse`: the base without its
extension. -/
def nameOf (l : List Char) : List Char :=
  (baseOf l).take ((baseOf l).length - (extOf l).length)

/-- First-occurrence replacement, like `s.replace(pat, rep)` for a string
pattern. -/
def replaceFirstL (pat rep : List Char) : List Char → List Char
  | [] => if List.isPrefixOf pat [] then rep else []
  | c :: rest =>
    if List.isPrefixOf pat (c :: rest) then rep ++ (c :: rest).drop pat.length
    else c :: replaceFirstL pat rep rest

/-! ### `safePath` (src/server.js lines 30–35) -/

/-- Result of `safePath`: the resolved path, a thrown `URIError` from
`decodeURIComponent`, or the thrown `Error('Unauthorized access')`. -/
inductive SafePathResult where
  | ok (p : String)
  | uriError
  | unauthorized
deriving DecidableEq

/-- Model of `.replace(/^[\/\\]+/, '')`: strip the leading run of slashes and
backslashes. -/
def dropLeadSeps (l : List Char) : List Char :=
  l.dropWhile (fun c => c = '/' || c = '\\')

/-- The function `safePath` from src/server.js:

```js
const safePath = (userPath = '') => {
    const cleanUserPath = decodeURIComponent(userPath).replace(/^[\/\\]+/, '');
    const targetPath = path.join(baseDir, cleanUserPath);
    if (!targetPath.startsWith(baseDir)) throw new Error('Unauthorized access');
    return targetPath;
};
```

`root` stands for the module-level `baseDir` (an absolute, normalized
directory produced by `path.resolve`). -/
def safePath (root : String) (userPath : String) : SafePathResult :=
  match decodeURIComp userPath with
  | none => .uriError
  | some decoded =>
    let clean := dropLeadSeps decoded.data
    let target := joinL [root.data, clean]
    if List.isPrefixOf root.data target then .ok ⟨target⟩ else .unauthorized

/-- The specification's segment-aware containment judgment: `p` lies under
`root` iff it equals `root` or extends it at a path-segment boundary
(so `"/data2"` is not under `"/data"`). -/
def isUnderSeg (root p : String) : Bool :=
  p = root || List.isPrefixOf (root.data ++ ['/']) p.data

/-! ### `getUniquePath` (src/server.js lines 37–46) -/

/-- The basename probed at counter `k`: `` `${name} (${counter})${ext}` ``. -/
def candName (name ext : List Char) (k : Nat) : List Char :=
  name ++ (' ' :: '(' :: (natToString k).data) ++ (')' :: ext)

/-- The full candidate path probed at counter `k` for a desired
`targetPath`: `path.join(dir, candName k)` with `dir`, `name`, `ext` from
`path.parse(targetPath)`. -/
def candidate (targetPath : String) (k : Nat) : String :=
  ⟨joinL [dirOf targetPath.data, candName (nameOf targetPath.data) (extOf targetPath.data) k]⟩

/-- The probe loop of `getUniquePath`.  `ex` is the set of existing paths
(`fs.pathExists`).  The loop is fuel-driven; `getUniquePath` supplies
fuel `ex.length + 2`, which is proved sufficient below, so the `fuel = 0`
branch is unreachable. -/
def guPathAux (ex : List String) (dir name ext : List Char) : Nat → Nat → String → String
  | 0, _, current => current
  | fuel + 1, counter, current =>
    if current ∈ ex then
      guPathAux ex dir name ext fuel (counter + 1) ⟨joinL [dir, candName name ext counter]⟩
    else current

/-- The function `getUniquePath` from src/server.js:

```js
const getUniquePath = async (targetPath) => {
    let { dir, name, ext } = path.parse(targetPath);
    let finalPath = targetPath;
    let counter = 1;
    while (await fs.pathExists(finalPath)) {
        finalPath = path.join(dir, `${name} (${counter})${ext}`);
        counter++;
    }
    return finalPath;
};
```
-/
def getUniquePath (ex : List String) (targetPath : String) : String :=
  guPathAux ex (dirOf targetPath.data) (nameOf targetPath.data) (extOf targetPath.data)
    (ex.length + 2) 1 targetPath

/-- The probe sequence walked by the loop from the state
`(current, counter)`: first `current`, then the candidates
`counter, counter + 1, …` in order. -/
def probeFrom (targetPath current : String) (counter : Nat) : Nat → String
  | 0 => current
  | j + 1 => candidate targetPath (counter + j)

/-- A plain path segment: nonempty and none of the special segments that
path normalization consumes. -/
def PlainSeg (f : List Char) : Prop :=
  f ≠ [] ∧ f ≠ ['.'] ∧ f ≠ ['.', '.'] ∧ '/' ∉ f

/-- The fixed character-list prefix that `path.join(dir, f)` puts in front
of a plain slash-free final segment `f` (see `joinL_pair_plain`). -/
def joinPrefixOf (dir : List Char) : List Char :=
  if dir = [] then []
  else
    let isAbs := isAbsL dir
    let out := (normStack isAbs (splitCh '/' dir)).reverse
    (if isAbs then ['/'] else []) ++ (if out = [] then [] else joinSegs out ++ ['/'])

/-! ### `formatSize` (src/server.js lines 48–54) -/

/-- The unit table `['Bytes', 'KB', 'MB', 'GB']`. -/
def sizesTable : List String := ["Bytes", "KB", "MB", "GB"]

/-- JavaScript array indexing with its out-of-bounds behavior: a missing
element is `undefined`, which string concatenation renders as
`"undefined"`. -/
def jsIndex (l : List String) (i : Nat) : String := (l.get? i).getD "undefined"

/-- Render `n2` hundredths as JavaScript renders
`parseFloat(x.toFixed(2))`: up to two decimals, trailing zeros (and a
trailing dot) dropped. -/
def renderHundredths (n2 : Nat) : String :=
  let ip := n2 / 100
  let fr := n2 % 100
  if fr = 0 then natToString ip
  else if fr % 10 = 0 then natToString ip ++ "." ++ natToString (fr / 10)
  else if fr < 10 then natToString ip ++ ".0" ++ natToString fr
  else natToString ip ++ "." ++ natToString fr

/-- The function `formatSize` from src/server.js:

```js
const formatSize = (bytes) => {
    if (bytes === 0) return '0 Bytes';
    const k = 1024;
    const sizes = ['Bytes', 'KB', 'MB', 'GB'];
    const i = Math.floor(Math.log(bytes) / Math.log(k));
    return parseFloat((bytes / Math.pow(k, i)).toFixed(2)) + ' ' + sizes[i];
};
```

`Math.floor(Math.log bytes / Math.log 1024)` is `Nat.log 1024 bytes`, and
the division, `toFixed(2)` and `parseFloat` are exact half-up rounding of
`bytes / 1024 ^ i` to hundredths (`(200 * bytes + 1024 ^ i) / (2 * 1024 ^ i)`
is `⌊100 * bytes / 1024 ^ i + 1 / 2⌋`; see `c7_formatSize_spec`). -/
def formatSize (bytes : Nat) : String :=
  if bytes = 0 then "0 Bytes"
  else
    let i := Nat.log 1024 bytes
    let n2 := (200 * bytes + 1024 ^ i) / (2 * 1024 ^ i)
    renderHundredths n2 ++ " " ++ jsIndex sizesTable i

/-- Exact half-up rounding to two decimal places over the rationals: the
idealized meaning of `parseFloat(x.toFixed(2))`. -/
def round2Q (q : ℚ) : ℚ := ((round (q * 100) : ℤ) : ℚ) / 100

/-! ### Admin gate (src/server.js lines 56–64) -/

/-- A locked-folder configuration entry `{ folderName, pin }`. -/
structure LockedFolder where
  folderName : String
  pin : String
deriving DecidableEq

/-- The parts of `config.json` the core reads. -/
structure Config where
  adminIps : List String
  lockedFolders : List LockedFolder
deriving DecidableEq

/-- The function `checkIsAdmin` from src/server.js: strip one `'::ffff:'` from the
request IP, then test membership in `config.adminIps` or loopback. -/
def checkIsAdmin (cfg : Config) (reqIp : String) : Bool :=
  let clientIp : String := ⟨replaceFirstL "::ffff:".data [] reqIp.data⟩
  cfg.adminIps.contains clientIp || clientIp = "127.0.0.1" || clientIp = "::1"

/-! ### `GET /api/files` (src/server.js lines 69–91) -/

/-- An on-disk child as `fs.readdir(..., { withFileTypes: true })` plus
`fs.stat` report it.  `mtimeStr` carries `stats.mtime.toLocaleString('th-TH')`
already rendered (locale formatting is not modeled). -/
structure DirEntry where
  name : String
  isFolder : Bool
  size : Nat
  mtimeStr : String
deriving DecidableEq

/-- One element of the JSON array the listing returns. -/
structure EntryJson where
  name : String
  isFolder : Bool
  path : String
  ext : String
  size : String
  date : String
deriving DecidableEq

/-- The readdir table: resolved directory path ↦ children. -/
abbrev DirFs := List (String × List DirEntry)

/-- Model of `fs.readdir` against the table. -/
def lookupDir (fs : DirFs) (target : String) : Option (List DirEntry) :=
  (fs.find? (fun kv => kv.1 = target)).map (fun kv => kv.2)

/-- Replace every occurrence of a character, like `.replace(/\\/g, '/')`. -/
def replAllL (a b : Char) (l : List Char) : List Char :=
  l.map (fun c => if c = a then b else c)

/-- Build one listing entry, following the route body:

```js
{ name: item.name,
  isFolder: item.isDirectory(),
  path: path.join(relPath, item.name).replace(/\\/g, '/'),
  ext: path.extname(item.name).toLowerCase(),
  size: item.isDirectory() ? '--' : formatSize(stats.size),
  date: stats.mtime.toLocaleString('th-TH') }
```
-/
def mkEntry (relPath : String) (e : DirEntry) : EntryJson where
  name := e.name
  isFolder := e.isFolder
  path := ⟨replAllL '\\' '/' (joinL [relPath.data, e.name.data])⟩
  ext := ⟨lowL (extnameL e.name.data)⟩
  size := if e.isFolder then "--" else formatSize e.size
  date := e.mtimeStr

/-- Response of `GET /api/files`: the entry array, the distinguished
`401 { locked: true }` signal (which carries no entry data), or a 500. -/
inductive FilesResponse where
  | ok (entries : List EntryJson)
  | locked
  | err (msg : String)
deriving DecidableEq

/-- The successful tail of the route: readdir and map to entries. -/
def listDir (fs : DirFs) (target : String) (relPath : String) : FilesResponse :=
  match lookupDir fs target with
  | none => .err "ENOENT"
  | some items => .ok (items.map (mkEntry relPath))

/-- The `GET /api/files` route:

```js
const relPath = req.query.path || '';
const target = safePath(relPath);
const locked = config.lockedFolders.find(f => f.folderName === relPath);
if (locked && req.query.pin !== locked.pin) return res.status(401).json({ locked: true });
const items = await fs.readdir(target, ...); ...
```

`pin = none` models an absent `req.query.pin` (strict `!==` against a
string is then true). -/
def filesRoute (root : String) (cfg : Config) (fs : DirFs) (relPath : String)
    (pin : Option String) : FilesResponse :=
  match safePath root relPath with
  | .ok target =>
    match cfg.lockedFolders.find? (fun f => f.folderName = relPath) with
    | some lf => if pin ≠ some lf.pin then .locked else listDir fs target relPath
    | none => listDir fs target relPath
  | _ => .err "Unauthorized access"

/-! ### Mutating routes (src/server.js lines 93–151) -/

/-- The set of existing filesystem paths, for the mutating routes. -/
abbrev FsSet := List String

/-- Response of a mutating route: `{ success: true }`, the middleware's
`403 { error: 'Admin Access Denied' }`, or a 500. -/
inductive MutResponse where
  | success
  | forbidden
  | err (msg : String)
deriving DecidableEq

/-- Model of `fs.move src dst`: fails when the source is missing or the (distinct)
destination already exists; otherwise relocates the path. -/
def fsMove (fs : FsSet) (src dst : String) : Option FsSet :=
  if src ∈ fs then
    if dst ∈ fs ∧ dst ≠ src then none else some (dst :: fs.erase src)
  else none

/-- Model of `fs.remove target`: drop the path and everything below it; missing
paths are not an error. -/
def fsRemove (fs : FsSet) (target : String) : FsSet :=
  fs.filter (fun p => ¬(p = target ∨ List.isPrefixOf (target.data ++ ['/']) p.data))

/-- Body of `PUT /api/rename`:

```js
const { oldPath, newName } = req.body;
const oldFull = safePath(oldPath);
const newFull = path.join(path.dirname(oldFull), newName);
await fs.move(oldFull, newFull);
```

Only `oldPath` passes through `safePath`; `newName` is joined in
unvalidated. -/
def renameHandler (root : String) (fs : FsSet) (oldPath newName : String) :
    MutResponse × FsSet :=
  match safePath root oldPath with
  | .ok oldFull =>
    let newFull : String := ⟨joinL [dirnameL oldFull.data, newName.data]⟩
    match fsMove fs oldFull newFull with
    | some fs2 => (.success, fs2)
    | none => (.err "move failed", fs)
  | .uriError => (.err "URI malformed", fs)
  | .unauthorized => (.err "Unauthorized access", fs)

/-- Body of `DELETE /api/delete`. -/
def deleteHandler (root : String) (fs : FsSet) (p : String) : MutResponse × FsSet :=
  match safePath root p with
  | .ok target => (.success, fsRemove fs target)
  | .uriError => (.err "URI malformed", fs)
  | .unauthorized => (.err "Unauthorized access", fs)

/-- Body of `PUT /api/move`: resolve both endpoints, allocate a unique
name under the destination for `basename(source)`, then move. -/
def moveHandler (root : String) (fs : FsSet) (source destination : String) :
    MutResponse × FsSet :=
  match safePath root source with
  | .ok srcFull =>
    match safePath root destination with
    | .ok destDir =>
      let destFull := getUniquePath fs ⟨joinL [destDir.data, basenameL source.data]⟩
      match fsMove fs srcFull destFull with
      | some fs2 => (.success, fs2)
      | none => (.err "move failed", fs)
    | _ => (.err "Unauthorized access", fs)
  | _ => (.err "Unauthorized access", fs)

/-- Name choice `customNames[i] || originalName` (JavaScript `||`: an absent entry and
the empty string both fall back). -/
def pickName (customNames : List String) (i : Nat) (orig : String) : String :=
  match customNames.get? i with
  | some s => if s = "" then orig else s
  | none => orig

/-- The upload loop: for each file pick its name, default the extension
from the original name, allocate a unique path, and write. -/
def uploadGo (targetFolder : String) (customNames : List String) :
    FsSet → Nat → List String → FsSet
  | fs, _, [] => fs
  | fs, i, orig :: rest =>
    let nm0 := pickName customNames i orig
    let nm := if extnameL nm0.data = [] then nm0 ++ (⟨extnameL orig.data⟩ : String) else nm0
    let finalPath := getUniquePath fs ⟨joinL [targetFolder.data, nm.data]⟩
    uploadGo targetFolder customNames (finalPath :: fs) (i + 1) rest

/-- Body of `POST /api/upload`.  `files` carries each uploaded file's
`originalname` after the route's latin1→utf8 re-decoding (that byte-level
re-decoding is not modeled; names arrive already decoded). -/
def uploadHandler (root : String) (fs : FsSet) (pathArg : String)
    (customNames : List String) (files : List String) : MutResponse × FsSet :=
  match safePath root pathArg with
  | .ok targetFolder => (.success, uploadGo targetFolder customNames fs 0 files)
  | .uriError => (.err "URI malformed", fs)
  | .unauthorized => (.err "Unauthorized access", fs)

/-- Body of `POST /api/mkdir` (`fs.ensureDir`: idempotent creation). -/
def mkdirHandler (root : String) (fs : FsSet) (p : String) : MutResponse × FsSet :=
  match safePath root p with
  | .ok target => (.success, if target ∈ fs then fs else target :: fs)
  | .uriError => (.err "URI malformed", fs)
  | .unauthorized => (.err "Unauthorized access", fs)

/-- Route `PUT /api/rename` with its `isAdmin` middleware: a non-admin caller is
answered `403` before the handler body runs. -/
def renameRoute (cfg : Config) (root reqIp : String) (fs : FsSet)
    (oldPath newName : String) : MutResponse × FsSet :=
  if checkIsAdmin cfg reqIp then renameHandler root fs oldPath newName
  else (.forbidden, fs)

/-- Route `DELETE /api/delete` with its `isAdmin` middleware. -/
def deleteRoute (cfg : Config) (root reqIp : String) (fs : FsSet) (p : String) :
    MutResponse × FsSet :=
  if checkIsAdmin cfg reqIp then deleteHandler root fs p else (.forbidden, fs)

/-- Route `PUT /api/move` with its `isAdmin` middleware. -/
def moveRoute (cfg : Config) (root reqIp : String) (fs : FsSet)
    (source destination : String) : MutResponse × FsSet :=
  if checkIsAdmin cfg reqIp then moveHandler root fs source destination
  else (.forbidden, fs)

/-- Route `POST /api/upload` with its `isAdmin` middleware. -/
def uploadRoute (cfg : Config) (root reqIp : String) (fs : FsSet) (pathArg : String)
    (customNames : List String) (files : List String) : MutResponse × FsSet :=
  if checkIsAdmin cfg reqIp then uploadHandler root fs pathArg customNames files
  else (.forbidden, fs)

/-- Route `POST /api/mkdir` with its `isAdmin` middleware. -/
def mkdirRoute (cfg : Config) (root reqIp : String) (fs : FsSet) (p : String) :
    MutResponse × FsSet :=
  if checkIsAdmin cfg reqIp then mkdirHandler root fs p else (.forbidden, fs)

/-! ### Recursive search -/

/-- A file tree: the children of the root directory are a `List FsNode`. -/
inductive FsNode where
  | file (name : String)
  | dir (name : String) (children : List FsNode)

/-- A search result: name, kind, and root-relative forward-slash path. -/
structure SearchHit where
  name : String
  isFolder : Bool
  path : String
deriving DecidableEq

/-- Case-insensitive substring match of `q` against an entry name. -/
def nameMatches (q : String) (n : String) : Bool :=
  containsL (lowL q.data) (lowL n.data)

/-- Extend a root-relative forward-slash path by one segment. -/
def childPath (pre : String) (n : String) : String :=
  if pre = "" then n else pre ++ "/" ++ n

/-- Modelled from the spec: the repository's recursive search (the
`GET /api/search?q=` endpoint) is not part of `src/server.js` — the file
only contains its frontend caller `handleSearch` — so this follows §4.4
of the specification: a depth-first traversal of the entire tree beneath
the root that emits an entry for every node whose name contains the query
as a case-insensitive substring, with the path expressed relative to the
root using forward slashes, and that recurses into every directory
whether or not the directory itself matched. -/
def searchList (q : String) (pre : String) : List FsNode → List SearchHit
  | [] => []
  | .file n :: rest =>
    (if nameMatches q n then [⟨n, false, childPath pre n⟩] else []) ++
      searchList q pre rest
  | .dir n cs :: rest =>
    (if nameMatches q n then [⟨n, true, childPath pre n⟩] else []) ++
      (searchList q (childPath pre n) cs ++ searchList q pre rest)

/-- Every entry of the tree, with its root-relative forward-slash path, in
the same depth-first order `searchList` walks. -/
def entriesList (pre : String) : List FsNode → List SearchHit
  | [] => []
  | .file n :: rest => ⟨n, false, childPath pre n⟩ :: entriesList pre rest
  | .dir n cs :: rest =>
    ⟨n, true, childPath pre n⟩ :: (entriesList (childPath pre n) cs ++ entriesList pre rest)

/-! ### Concrete fixtures for witnesses -/

/-- Existing paths for the `getUniquePath` witness: the desired path and
its first two suffixed variants are taken. -/
def exampleFs : List String := ["/d/f.txt", "/d/f (1).txt", "/d/f (2).txt"]

/-- Config for the locked-folder witness. -/
def cfgC5 : Config := ⟨[], [⟨"secret", "1234"⟩]⟩

/-- Readdir table for the locked-folder witness. -/
def fsC5 : DirFs := [("/data/secret", [⟨"inner", true, 0, "t"⟩])]

/-- Config for the lock-bypass witness: folder `F` is PIN-locked. -/
def cfgC10 : Config := ⟨[], [⟨"F", "9999"⟩]⟩

/-- Readdir table for the lock-bypass witness: a child listing inside the
locked folder `F`. -/
def fsC10 : DirFs := [("/data/F/sub", [⟨"secret.txt", false, 0, "t"⟩])]

/-- Config for the non-admin witness: no allow-listed IPs. -/
def cfgC4 : Config := ⟨[], []⟩

/-- The example tree of the search claim: `R/a/report.pdf`,
`R/b/Report2024.txt`, `R/c/readme.txt`. -/
def exTree : List FsNode :=
  [.dir "a" [.file "report.pdf"],
   .dir "b" [.file "Report2024.txt"],
   .dir "c" [.file "readme.txt"]]

/-! ### Helper lemmas: strings and decimal rendering -/

theorem isPrefixOf_self {α : Type} [BEq α] [LawfulBEq α] (l : List α) :
    List.isPrefixOf l l = true := by
  induction l with
  | nil => rfl
  | cons c t ih => simp [List.isPrefixOf, ih]

theorem mk_data_inj {l l2 : List Char} (h : (⟨l⟩ : String) = ⟨l2⟩) : l = l2 :=
  congrArg String.data h

theorem natChars_acc (fuel : Nat) :
    ∀ n acc, natChars fuel n acc = natChars fuel n [] ++ acc := by
  induction fuel with
  | zero => intro n acc; rfl
  | succ fuel ih =>
    intro n acc
    by_cases h : n < 10
    · simp [natChars, h]
    · simp only [natChars, if_neg h]
      rw [ih (n / 10) (digitChar (n % 10) :: acc), ih (n / 10) [digitChar (n % 10)]]
      simp

theorem digitChar_toNat : ∀ d, d < 10 → (digitChar d).toNat = 48 + d := by decide

theorem charsVal_natChars (fuel : Nat) :
    ∀ n, n < 10 ^ fuel → charsVal (natChars fuel n []) = n := by
  induction fuel with
  | zero =>
    intro n hn
    interval_cases n
    rfl
  | succ fuel ih =>
    intro n hn
    by_cases h : n < 10
    · have hd : (digitChar n).toNat = 48 + n := digitChar_toNat n h
      simp [natChars, h, charsVal, hd]
    · simp only [natChars, if_neg h]
      rw [natChars_acc]
      unfold charsVal
      rw [List.foldl_append]
      have hdiv : n / 10 < 10 ^ fuel := by
        rw [Nat.div_lt_iff_lt_mul (by norm_num)]
        calc n < 10 ^ (fuel + 1) := hn
        _ = 10 ^ fuel * 10 := by ring
      have hmod : (digitChar (n % 10)).toNat = 48 + n % 10 :=
        digitChar_toNat _ (Nat.mod_lt _ (by norm_num))
      have ihv := ih (n / 10) hdiv
      unfold charsVal at ihv
      rw [ihv]
      simp only [List.foldl, hmod]
      omega

theorem natToString_inj {m n : Nat} (h : natToString m = natToString n) : m = n := by
  have hd : natChars (m + 1) m [] = natChars (n + 1) n [] := congrArg String.data h
  have hm : charsVal (natChars (m + 1) m []) = m :=
    charsVal_natChars _ m (lt_of_lt_of_le (Nat.lt_pow_self (by norm_num) m)
      (Nat.pow_le_pow_right (by norm_num) (Nat.le_succ m)))
  have hn : charsVal (natChars (n + 1) n []) = n :=
    charsVal_natChars _ n (lt_of_lt_of_le (Nat.lt_pow_self (by norm_num) n)
      (Nat.pow_le_pow_right (by norm_num) (Nat.le_succ n)))
  rw [hd, hn] at hm
  exact hm.symm

/-! ### Helper lemmas: `find?` and pigeonhole -/

theorem find?_eq_of_mem_unique {α : Type} (p : α → Bool) (l : List α) (a : α)
    (ha : a ∈ l) (hp : p a = true) (huniq : ∀ b ∈ l, p b = true → b = a) :
    l.find? p = some a := by
  induction l with
  | nil => cases ha
  | cons x xs ih =>
    by_cases hx : p x = true
    · have hxa : x = a := huniq x (List.mem_cons_self x xs) hx
      subst hxa
      simp [List.find?_cons, hx]
    · have hax : a ∈ xs := by
        rcases List.mem_cons.mp ha with h | h
        · exact absurd (h ▸ hp) hx
        · exact h
      have hx2 : p x = false := by simpa using hx
      simp only [List.find?_cons, hx2]
      exact ih hax (fun b hb => huniq b (List.mem_cons_of_mem _ hb))

theorem exists_fresh (ex : List String) (f : Nat → String)
    (hinj : Function.Injective f) : ∃ j, j ≤ ex.length ∧ f j ∉ ex := by
  by_contra hcon
  push_neg at hcon
  have hsub : (Finset.range (ex.length + 1)).image f ⊆ ex.toFinset := by
    intro x hx
    obtain ⟨k, hk, rfl⟩ := Finset.mem_image.mp hx
    exact List.mem_toFinset.mpr (hcon k (Nat.lt_succ_iff.mp (Finset.mem_range.mp hk)))
  have hcard := Finset.card_le_card hsub
  rw [Finset.card_image_of_injective _ hinj, Finset.card_range] at hcard
  have hlen : ex.toFinset.card ≤ ex.length := by
    rw [List.card_toFinset]
    exact (List.dedup_sublist ex).length_le
  omega

/-! ### Helper lemmas: the shape of `path.join(dir, plainSegment)` -/

theorem splitCh_ne_nil (sep : Char) (l : List Char) : splitCh sep l ≠ [] := by
  cases l with
  | nil => simp [splitCh]
  | cons c rest =>
    simp only [splitCh]
    by_cases h : c = sep
    · simp [h]
    · simp only [if_neg h]
      cases hr : splitCh sep rest <;> simp

theorem splitCh_append (sep : Char) (ys : List Char) :
    ∀ xs, splitCh sep (xs ++ sep :: ys) = splitCh sep xs ++ splitCh sep ys := by
  intro xs
  induction xs with
  | nil => simp [splitCh]
  | cons c xs ih =>
    by_cases h : c = sep
    · simp [splitCh, h, ih]
    · obtain ⟨h1, t1, hx⟩ : ∃ h1 t1, splitCh sep xs = h1 :: t1 := by
        cases hxs : splitCh sep xs with
        | nil => exact absurd hxs (splitCh_ne_nil sep xs)
        | cons a b => exact ⟨a, b, rfl⟩
      simp [splitCh, h, ih, hx]

theorem splitCh_no_sep (sep : Char) (l : List Char) (h : sep ∉ l) :
    splitCh sep l = [l] := by
  induction l with
  | nil => rfl
  | cons c rest ih =>
    have hc : ¬c = sep := by
      intro e
      exact h (e ▸ List.mem_cons_self c rest)
    have hr : sep ∉ rest := fun m => h (List.mem_cons_of_mem _ m)
    simp [splitCh, hc, ih hr]

theorem normStack_append_plain (isAbs : Bool) (segs : List (List Char)) (f : List Char)
    (hf : PlainSeg f) : normStack isAbs (segs ++ [f]) = f :: normStack isAbs segs := by
  obtain ⟨h1, h2, h3, _⟩ := hf
  unfold normStack
  rw [List.foldl_append]
  simp [normStep, h1, h2, h3]

theorem joinSegs_append_single (f : List Char) :
    ∀ xs, joinSegs (xs ++ [f]) = (if xs = [] then [] else joinSegs xs ++ ['/']) ++ f := by
  intro xs
  induction xs with
  | nil => simp [joinSegs]
  | cons x xs ih =>
    cases xs with
    | nil => simp [joinSegs]
    | cons y ys =>
      have e2 : ∀ (s : List Char) (r : List (List Char)), r ≠ [] →
          joinSegs (s :: r) = s ++ '/' :: joinSegs r := by
        intro s r h
        cases r with
        | nil => exact absurd rfl h
        | cons a b => rfl
      have e1 : (x :: y :: ys) ++ [f] = x :: ((y :: ys) ++ [f]) := rfl
      rw [e1, e2 x ((y :: ys) ++ [f]) (by simp), e2 x (y :: ys) (by simp), ih]
      simp [List.append_assoc]

theorem joinL_pair_plain (dir f : List Char) (hf : PlainSeg f) :
    joinL [dir, f] = joinPrefixOf dir ++ f := by
  obtain ⟨h1, h2, h3, h4⟩ := hf
  by_cases hd : dir = []
  · subst hd
    have hfil : List.filter (fun p => p ≠ []) [([] : List Char), f] = [f] := by
      simp [List.filter, h1]
    have habs : isAbsL f = false := by
      cases f with
      | nil => rfl
      | cons c rest =>
        have : c ≠ '/' := by
          intro e
          exact h4 (e ▸ List.mem_cons_self c rest)
        simp [isAbsL, this]
    simp only [joinL, hfil, joinSegs, if_neg h1, normalizeL, habs,
      splitCh_no_sep '/' f h4, joinPrefixOf]
    have hstep : normStack false [f] = [f] := by
      simp [normStack, normStep, h1, h2, h3]
    simp [hstep, joinSegs, h1]
  · have hfil : List.filter (fun p => p ≠ []) [dir, f] = [dir, f] := by
      simp [List.filter, hd, h1]
    have hjs : joinSegs [dir, f] = dir ++ '/' :: f := by simp [joinSegs]
    have hne : dir ++ '/' :: f ≠ [] := by
      cases dir with
      | nil => exact absurd rfl hd
      | cons c t => simp
    have habs : isAbsL (dir ++ '/' :: f) = isAbsL dir := by
      cases dir with
      | nil => exact absurd rfl hd
      | cons c t => rfl
    have hsplit : splitCh '/' (dir ++ '/' :: f) = splitCh '/' dir ++ [f] := by
      rw [splitCh_append '/' f dir, splitCh_no_sep '/' f h4]
    have hstack : ∀ b, normStack b (splitCh '/' dir ++ [f]) =
        f :: normStack b (splitCh '/' dir) :=
      fun b => normStack_append_plain b _ f ⟨h1, h2, h3, h4⟩
    simp only [joinL, hfil, hjs, if_neg hne, normalizeL, habs, hsplit, hstack,
      List.reverse_cons, joinPrefixOf, if_neg hd]
    rw [joinSegs_append_single]
    by_cases hb : isAbsL dir = true
    · simp only [hb, if_pos]
      by_cases ho : (normStack true (splitCh '/' dir)).reverse = []
      · simp [ho]
      · simp [ho]
    · have hb2 : isAbsL dir = false := by simpa using hb
      simp only [hb2]
      by_cases ho : (normStack false (splitCh '/' dir)).reverse = []
      · simp [ho]
      · have hne2 : (normStack false (splitCh '/' dir)).reverse ++ [f] ≠ [] := by simp
        simp [ho, hne2]

/-! ### Helper lemmas: candidates are pairwise distinct -/

theorem natChars_chars (fuel : Nat) :
    ∀ n acc c, c ∈ natChars fuel n acc → c ∈ acc ∨ ∃ d, d < 10 ∧ c = digitChar d := by
  induction fuel with
  | zero => intro n acc c hc; exact Or.inl hc
  | succ fuel ih =>
    intro n acc c hc
    by_cases h : n < 10
    · simp only [natChars, if_pos h] at hc
      rcases List.mem_cons.mp hc with rfl | hc
      · exact Or.inr ⟨n, h, rfl⟩
      · exact Or.inl hc
    · simp only [natChars, if_neg h] at hc
      rcases ih _ _ _ hc with hacc | hdig
      · rcases List.mem_cons.mp hacc with rfl | hacc
        · exact Or.inr ⟨n % 10, Nat.mod_lt _ (by norm_num), rfl⟩
        · exact Or.inl hacc
      · exact Or.inr hdig

theorem natToString_no_slash (k : Nat) : '/' ∉ (natToString k).data := by
  intro h
  rcases natChars_chars (k + 1) k [] '/' h with hacc | ⟨d, hd, he⟩
  · cases hacc
  · have : ∀ d, d < 10 → digitChar d ≠ '/' := by decide
    exact this d hd he.symm

theorem baseOf_no_slash (l : List Char) : '/' ∉ baseOf l := by
  intro h
  rw [baseOf, basenameL, List.mem_reverse] at h
  have := List.mem_takeWhile_imp h
  simp at this

theorem nameOf_no_slash (l : List Char) : '/' ∉ nameOf l := by
  intro h
  exact baseOf_no_slash l (List.take_subset _ _ h)

theorem extOf_no_slash (l : List Char) : '/' ∉ extOf l := by
  intro h
  rw [extOf, extOfBase] at h
  by_cases hb : baseOf l = ['.', '.']
  · simp [hb] at h
  · simp only [if_neg hb] at h
    cases hd : (baseOf l).reverse.dropWhile (fun c => c ≠ '.') with
    | nil => rw [hd] at h; simp at h
    | cons x before =>
      rw [hd] at h
      by_cases hbe : before = []
      · simp [hbe] at h
      · simp only [if_neg hbe] at h
        rcases List.mem_cons.mp h with he | he
        · exact absurd he (by decide)
        · rw [List.mem_reverse] at he
          have h2 : '/' ∈ (baseOf l).reverse := (List.takeWhile_sublist _).subset he
          rw [List.mem_reverse] at h2
          exact baseOf_no_slash l h2

theorem candName_plain (name ext : List Char) (k : Nat)
    (hn : '/' ∉ name) (he : '/' ∉ ext) : PlainSeg (candName name ext k) := by
  have hparen : '(' ∈ candName name ext k := by simp [candName]
  refine ⟨?_, ?_, ?_, ?_⟩
  · intro e; rw [e] at hparen; cases hparen
  · intro e; rw [e] at hparen; simp at hparen
  · intro e; rw [e] at hparen; simp at hparen
  · intro hm
    rw [candName] at hm
    rcases List.mem_append.mp hm with hm | hm
    · rcases List.mem_append.mp hm with hm | hm
      · exact hn hm
      · rcases List.mem_cons.mp hm with he2 | hm
        · exact absurd he2 (by decide)
        · rcases List.mem_cons.mp hm with he2 | hm
          · exact absurd he2 (by decide)
          · exact natToString_no_slash k hm
    · rcases List.mem_cons.mp hm with he2 | hm
      · exact absurd he2 (by decide)
      · exact he hm

theorem candName_inj (name ext : List Char) {k j : Nat}
    (h : candName name ext k = candName name ext j) : k = j := by
  rw [candName, candName, List.append_assoc, List.append_assoc] at h
  have h4 := List.append_cancel_left h
  simp only [List.cons_append] at h4
  injection h4 with _ h5
  injection h5 with _ h6
  have h7 := List.append_cancel_right h6
  exact natToString_inj (congrArg String.mk h7)

theorem candidate_inj (t : String) : Function.Injective (candidate t) := by
  intro k j h
  have h2 := mk_data_inj h
  have hpk : PlainSeg (candName (nameOf t.data) (extOf t.data) k) :=
    candName_plain _ _ _ (nameOf_no_slash _) (extOf_no_slash _)
  have hpj : PlainSeg (candName (nameOf t.data) (extOf t.data) j) :=
    candName_plain _ _ _ (nameOf_no_slash _) (extOf_no_slash _)
  rw [joinL_pair_plain _ _ hpk, joinL_pair_plain _ _ hpj] at h2
  exact candName_inj _ _ (List.append_cancel_left h2)

/-! ### Helper lemmas: the probe loop of `getUniquePath` -/

theorem guPathAux_spec (ex : List String) (t : String) :
    ∀ fuel counter current,
      (∃ j, j < fuel ∧ probeFrom t current counter j ∉ ex) →
      ∃ j, j < fuel ∧
        guPathAux ex (dirOf t.data) (nameOf t.data) (extOf t.data) fuel counter current =
          probeFrom t current counter j ∧
        probeFrom t current counter j ∉ ex ∧
        ∀ i, i < j → probeFrom t current counter i ∈ ex := by
  intro fuel
  induction fuel with
  | zero =>
    rintro counter current ⟨j, hj, -⟩
    omega
  | succ fuel ih =>
    rintro counter current ⟨j, hj, hnot⟩
    by_cases hc : current ∈ ex
    · have hj0 : j ≠ 0 := by
        rintro rfl
        exact hnot hc
      obtain ⟨j1, rfl⟩ := Nat.exists_eq_succ_of_ne_zero hj0
      have hshift : ∀ i, probeFrom t (candidate t counter) (counter + 1) i =
          probeFrom t current counter (i + 1) := by
        intro i
        cases i with
        | zero => simp [probeFrom]
        | succ i =>
          simp only [probeFrom]
          congr 1
          omega
      obtain ⟨j0, hj0f, heq, hne, hmin⟩ := ih (counter + 1) (candidate t counter)
        ⟨j1, by omega, by rw [hshift]; exact hnot⟩
      refine ⟨j0 + 1, by omega, ?_, ?_, ?_⟩
      · simp only [guPathAux, if_pos hc]
        rw [← hshift j0]
        exact heq
      · rw [← hshift j0]
        exact hne
      · intro i hi
        cases i with
        | zero => exact hc
        | succ i =>
          rw [← hshift i]
          exact hmin i (by omega)
    · exact ⟨0, by omega, by simp only [guPathAux, if_neg hc]; rfl, hc, by omega⟩

theorem probeFrom_one (t : String) (j : Nat) :
    probeFrom t t 1 (j + 1) = candidate t (j + 1) := by
  simp only [probeFrom]
  congr 1
  omega

/-! ### Helper lemmas: search, rounding -/

theorem searchList_eq_filter (q : String) :
    ∀ (pre : String) (ns : List FsNode),
      searchList q pre ns = (entriesList pre ns).filter (fun h => nameMatches q h.name) := by
  intro pre ns
  refine searchList.induct q
    (fun pre ns => searchList q pre ns =
      (entriesList pre ns).filter (fun h => nameMatches q h.name)) ?_ ?_ ?_ pre ns
  · intro pre
    simp [searchList, entriesList]
  · intro pre n rest ih
    by_cases h : nameMatches q n <;>
      simp [searchList, entriesList, h, ih, List.filter_cons]
  · intro pre n cs rest ih1 ih2
    by_cases h : nameMatches q n <;>
      simp [searchList, entriesList, h, ih1, ih2, List.filter_cons, List.filter_append]

theorem natDiv_eq_round (b P : Nat) (hP : 0 < P) :
    (((200 * b + P) / (2 * P) : Nat) : ℤ) = round ((b : ℚ) / (P : ℚ) * 100) := by
  have hPQ : (0 : ℚ) < (P : ℚ) := by exact_mod_cast hP
  rw [round_eq]
  have harg : (b : ℚ) / (P : ℚ) * 100 + 1 / 2 =
      ((200 * b + P : Nat) : ℚ) / ((2 * P : Nat) : ℚ) := by
    push_cast
    field_simp
    ring
  rw [harg]
  have hnn : (0 : ℚ) ≤ ((200 * b + P : Nat) : ℚ) / ((2 * P : Nat) : ℚ) := by positivity
  rw [← Int.natCast_floor_eq_floor hnn, Nat.floor_div_nat, Nat.floor_natCast]

/-! ### Claims -/

/-- C1: the specification claims `safePath` is segment-aware — that for
every root and adversarial input it returns a path under the root or
throws, and that a sibling directory merely extending the root as a
string (`"/data2"` against `"/data"`) is never accepted.  The code uses a
raw `targetPath.startsWith(baseDir)` check, so the input `"../data2"`
resolves to `"/data2"`, passes the check, and is returned even though it
is not under `"/data"` segment-wise: the claim is right about the intent
and the code is the known naive-`startsWith` defect the specification
itself warns about. -/
theorem c1_safePath_naive_startsWith_escape :
    safePath "/data" "../data2" = .ok "/data2" ∧
    isUnderSeg "/data" "/data2" = false := by decide

/-- C2: the specification claims every rename is confined to the root or
rejected with `PathEscapeError` before any filesystem change.  The route
resolves only `oldPath` through `safePath` and joins the unvalidated
`newName` onto its directory, so `newName = "../../etc/x"` relocates
`/data/f.txt` to `/etc/x` — outside the root — and the move is performed
and reported as success. -/
theorem c2_rename_destination_escape :
    renameRoute cfgC4 "/data" "127.0.0.1" ["/data/f.txt"] "f.txt" "../../etc/x" =
      (.success, ["/etc/x"]) ∧
    isUnderSeg "/data" "/etc/x" = false := by decide

/-- C3: `getUniquePath` returns the desired path unchanged when it does
not exist; otherwise it returns the first candidate
`path.join(dir, "{name} ({k}){ext}")` for `k = 1, 2, 3, …` in increasing
order that does not exist; and the returned path never exists at call
time. -/
theorem c3_getUniquePath_spec (ex : List String) (t : String) :
    getUniquePath ex t ∉ ex ∧
    (t ∉ ex → getUniquePath ex t = t) ∧
    (t ∈ ex → ∃ k, 1 ≤ k ∧ getUniquePath ex t = candidate t k ∧ candidate t k ∉ ex ∧
      ∀ i, 1 ≤ i → i < k → candidate t i ∈ ex) := by
  have hex : ∃ j, j < ex.length + 2 ∧ probeFrom t t 1 j ∉ ex := by
    by_cases ht : t ∈ ex
    · obtain ⟨j, hj, hnot⟩ := exists_fresh ex (fun m => candidate t (m + 1))
        (fun a b hab => by
          have := candidate_inj t hab
          omega)
      exact ⟨j + 1, by omega, by rw [probeFrom_one]; exact hnot⟩
    · exact ⟨0, by omega, ht⟩
  obtain ⟨j0, hj0, heq, hne, hmin⟩ := guPathAux_spec ex t (ex.length + 2) 1 t hex
  have hgup : getUniquePath ex t = probeFrom t t 1 j0 := heq
  refine ⟨?_, ?_, ?_⟩
  · rw [hgup]
    exact hne
  · intro ht
    have hj00 : j0 = 0 := by
      by_contra hne0
      obtain ⟨j1, rfl⟩ := Nat.exists_eq_succ_of_ne_zero hne0
      exact ht (hmin 0 (by omega))
    rw [hgup, hj00]
    rfl
  · intro ht
    have hj00 : j0 ≠ 0 := by
      rintro rfl
      exact hne ht
    obtain ⟨k1, rfl⟩ := Nat.exists_eq_succ_of_ne_zero hj00
    refine ⟨k1 + 1, by omega, ?_, ?_, ?_⟩
    · rw [hgup, probeFrom_one]
    · rw [← probeFrom_one]
      exact hne
    · intro i h1 hik
      obtain ⟨i1, rfl⟩ := Nat.exists_eq_succ_of_ne_zero (by omega : i ≠ 0)
      rw [← probeFrom_one]
      exact hmin (i1 + 1) (by omega)

/-- Witness for C3: with `p`, `p (1)`, `p (2)` existing the allocator
returns `p (3)`, which is fresh; and a nonexistent path is returned
unchanged. -/
theorem c3_getUniquePath_witness :
    getUniquePath exampleFs "/d/f.txt" ∉ exampleFs ∧
    getUniquePath exampleFs "/d/f.txt" = "/d/f (3).txt" ∧
    getUniquePath ["/q"] "/d/f.txt" = "/d/f.txt" :=
  ⟨(c3_getUniquePath_spec exampleFs "/d/f.txt").1, by decide,
    (c3_getUniquePath_spec ["/q"] "/d/f.txt").2.1 (by decide)⟩

/-- C4: a non-admin caller invoking rename, delete, move, upload or mkdir
receives the `403` forbidden response from the `isAdmin` middleware and
the filesystem state is returned unchanged — the handler body never
runs. -/
theorem c4_nonadmin_all_rejected (cfg : Config) (root reqIp : String)
    (h : checkIsAdmin cfg reqIp = false) :
    (∀ fs oldPath newName, renameRoute cfg root reqIp fs oldPath newName = (.forbidden, fs)) ∧
    (∀ fs p, deleteRoute cfg root reqIp fs p = (.forbidden, fs)) ∧
    (∀ fs src dst, moveRoute cfg root reqIp fs src dst = (.forbidden, fs)) ∧
    (∀ fs p names files, uploadRoute cfg root reqIp fs p names files = (.forbidden, fs)) ∧
    (∀ fs p, mkdirRoute cfg root reqIp fs p = (.forbidden, fs)) := by
  refine ⟨?_, ?_, ?_, ?_, ?_⟩ <;> intros <;>
    simp [renameRoute, deleteRoute, moveRoute, uploadRoute, mkdirRoute, h]

/-- Witness for C4: a caller from `10.0.0.5` with an empty allow-list is
not an admin and all five mutating routes reject without touching the
filesystem. -/
theorem c4_nonadmin_witness :
    checkIsAdmin cfgC4 "10.0.0.5" = false ∧
    renameRoute cfgC4 "/data" "10.0.0.5" ["/data/a.txt"] "a.txt" "b.txt" =
      (.forbidden, ["/data/a.txt"]) ∧
    deleteRoute cfgC4 "/data" "10.0.0.5" ["/data/a.txt"] "a.txt" =
      (.forbidden, ["/data/a.txt"]) ∧
    moveRoute cfgC4 "/data" "10.0.0.5" ["/data/a.txt"] "a.txt" "sub" =
      (.forbidden, ["/data/a.txt"]) ∧
    uploadRoute cfgC4 "/data" "10.0.0.5" ["/data/a.txt"] "" [] ["u.bin"] =
      (.forbidden, ["/data/a.txt"]) ∧
    mkdirRoute cfgC4 "/data" "10.0.0.5" ["/data/a.txt"] "nd" =
      (.forbidden, ["/data/a.txt"]) := by
  have h := c4_nonadmin_all_rejected cfgC4 "/data" "10.0.0.5" (by decide)
  exact ⟨by decide, h.1 _ _ _, h.2.1 _ _, h.2.2.1 _ _ _, h.2.2.2.1 _ _ _ _, h.2.2.2.2 _ _⟩

/-- C5: for a configured locked folder whose name equals the request
path (the folder name occurring once in the configuration), an absent or
mismatched PIN yields the distinguished `401 { locked: true }` response —
which carries no entry data — and the exactly matching PIN yields the
real directory listing. -/
theorem c5_locked_folder_gate (root : String) (cfg : Config) (fs : DirFs)
    (relPath target : String) (lf : LockedFolder) (items : List DirEntry)
    (hsafe : safePath root relPath = .ok target)
    (hmem : lf ∈ cfg.lockedFolders)
    (hname : lf.folderName = relPath)
    (huniq : ∀ lf2 ∈ cfg.lockedFolders, lf2.folderName = relPath → lf2 = lf)
    (hdir : lookupDir fs target = some items) :
    (∀ pin, pin ≠ some lf.pin → filesRoute root cfg fs relPath pin = .locked) ∧
    filesRoute root cfg fs relPath (some lf.pin) = .ok (items.map (mkEntry relPath)) := by
  have hfind : cfg.lockedFolders.find? (fun f => f.folderName = relPath) = some lf :=
    find?_eq_of_mem_unique _ _ _ hmem (by simp [hname])
      (fun b hb hpb => huniq b hb (by simpa using hpb))
  constructor
  · intro pin hpin
    simp [filesRoute, hsafe, hfind, hpin]
  · simp [filesRoute, hsafe, hfind, listDir, hdir]

/-- Witness for C5: folder `secret` with PIN `1234`; no PIN and a wrong
PIN are answered `locked`, the right PIN returns the listing. -/
theorem c5_locked_folder_witness :
    filesRoute "/data" cfgC5 fsC5 "secret" none = .locked ∧
    filesRoute "/data" cfgC5 fsC5 "secret" (some "0000") = .locked ∧
    filesRoute "/data" cfgC5 fsC5 "secret" (some "1234") =
      .ok [⟨"inner", true, "secret/inner", "", "--", "t"⟩] := by
  have h := c5_locked_folder_gate "/data" cfgC5 fsC5 "secret" "/data/secret"
    ⟨"secret", "1234"⟩ [⟨"inner", true, 0, "t"⟩] (by decide) (by decide) (by decide)
    (by decide) (by decide)
  exact ⟨h.1 none (by decide), h.1 (some "0000") (by decide), h.2.trans (by decide)⟩

/-- C6: the recursive search (modelled from the spec, since the search
endpoint is absent from `src/server.js`) returns exactly the entries of
the tree whose name contains the query as a case-insensitive substring,
paths root-relative with forward slashes; over the example tree
`a/report.pdf`, `b/Report2024.txt`, `c/readme.txt` the query `"report"`
returns exactly the first two. -/
theorem c6_search_exactly_matching :
    (∀ (q pre : String) (ns : List FsNode),
      searchList q pre ns = (entriesList pre ns).filter (fun h => nameMatches q h.name)) ∧
    searchList "report" "" exTree =
      [⟨"report.pdf", false, "a/report.pdf"⟩, ⟨"Report2024.txt", false, "b/Report2024.txt"⟩] :=
  ⟨fun q pre ns => searchList_eq_filter q pre ns,
    by simp +decide [searchList, exTree, childPath]⟩

/-- C7: `formatSize 0 = "0 Bytes"`; for `0 < b < 1024 ^ 4` the output is
`b / 1024 ^ i` rounded half-up to two decimal places (shown with trailing
zeros dropped) followed by a space and the unit at index
`i = ⌊log b / log 1024⌋` of the table; and `formatSize 1536 = "1.5 KB"`. -/
theorem c7_formatSize_spec :
    formatSize 0 = "0 Bytes" ∧
    (∀ b : Nat, 0 < b → b < 1024 ^ 4 →
      ∃ n : Nat, (n : ℚ) / 100 = round2Q ((b : ℚ) / (1024 : ℚ) ^ Nat.log 1024 b) ∧
        ∃ h4 : Nat.log 1024 b < sizesTable.length,
          formatSize b = renderHundredths n ++ " " ++ sizesTable.get ⟨Nat.log 1024 b, h4⟩) ∧
    formatSize 1536 = "1.5 KB" := by
  refine ⟨by decide, ?_, ?_⟩
  · intro b hb hlt
    have hP : 0 < 1024 ^ Nat.log 1024 b := by positivity
    have h4 : Nat.log 1024 b < sizesTable.length := Nat.log_lt_of_lt_pow hb.ne' hlt
    refine ⟨(200 * b + 1024 ^ Nat.log 1024 b) / (2 * 1024 ^ Nat.log 1024 b), ?_, h4, ?_⟩
    · rw [round2Q]
      have hcast : ((1024 : ℚ)) ^ Nat.log 1024 b = ((1024 ^ Nat.log 1024 b : Nat) : ℚ) := by
        push_cast
        ring
      rw [hcast, ← natDiv_eq_round b (1024 ^ Nat.log 1024 b) hP, Int.cast_natCast]
    · simp only [formatSize, if_neg hb.ne']
      congr 1
      rw [jsIndex, List.get?_eq_get h4, Option.getD_some]
  · have h : Nat.log 1024 1536 = 1 :=
      Nat.log_eq_of_pow_le_of_lt_pow (by norm_num) (by norm_num)
    simp only [formatSize, h]
    decide

/-- Witness for C7: the claim instantiated at `b = 1536`. -/
theorem c7_formatSize_witness :
    ∃ n : Nat, (n : ℚ) / 100 = round2Q ((1536 : ℚ) / (1024 : ℚ) ^ Nat.log 1024 1536) ∧
      ∃ h4 : Nat.log 1024 1536 < sizesTable.length,
        formatSize 1536 = renderHundredths n ++ " " ++ sizesTable.get ⟨Nat.log 1024 1536, h4⟩ :=
  c7_formatSize_spec.2.1 1536 (by norm_num) (by norm_num)

/-- C8: the specification claims the unit index is clamped to the table
`[Bytes, KB, MB, GB]` so very large sizes still report a GB value.  The
code does not clamp: at `bytes = 1024 ^ 4` it evaluates `sizes[4]`,
which is `undefined`, and produces the string `"1 undefined"` (while
`5 * 1024 ^ 3` is still below the boundary and correctly reports
`"5 GB"`): the claim matches the stated intent and the code lacks the
guard the specification itself flags as missing. -/
theorem c8_formatSize_indexes_past_table :
    formatSize (1024 ^ 4) = "1 undefined" ∧ formatSize (5 * 1024 ^ 3) = "5 GB" := by
  constructor
  · have h : Nat.log 1024 (1024 ^ 4) = 4 := Nat.log_pow (by norm_num) 4
    simp only [formatSize, h]
    decide
  · have h : Nat.log 1024 (5 * 1024 ^ 3) = 3 :=
      Nat.log_eq_of_pow_le_of_lt_pow (by norm_num) (by norm_num)
    simp only [formatSize, h]
    decide

/-- C9: for every normalized root, resolving the empty user path yields
the root itself, without error. -/
theorem c9_safePath_empty (root : String) (hroot : normalizePosix root = root) :
    safePath root "" = .ok root := by
  have hd : root.data ≠ [] := by
    intro e
    have h0 : root = "" := by
      calc root = ⟨root.data⟩ := rfl
      _ = ⟨[]⟩ := by rw [e]
    rw [h0] at hroot
    have hdot : normalizePosix "" = "." := by decide
    rw [hdot] at hroot
    exact absurd hroot (by decide)
  have hnorm : normalizeL root.data = root.data := congrArg String.data hroot
  have hfil : List.filter (fun p => p ≠ []) [root.data, ([] : List Char)] = [root.data] := by
    simp [List.filter, hd]
  have hjoin : joinL [root.data, []] = root.data := by
    simp only [joinL, hfil, joinSegs, if_neg hd, hnorm]
  show safePath root "" = .ok root
  simp only [safePath, decodeURIComp, percDecodeAux, Option.map_some']
  have hdrop : dropLeadSeps (String.data ⟨[]⟩) = [] := rfl
  simp only [hdrop, hjoin, isPrefixOf_self, if_pos]

/-- Witness for C9: the concrete root `"/data"`. -/
theorem c9_safePath_empty_witness :
    normalizePosix "/data" = "/data" ∧ safePath "/data" "" = .ok "/data" :=
  ⟨by decide, c9_safePath_empty "/data" (by decide)⟩

/-- C10: the PIN gate fires only when the raw request path string is
exactly equal to a configured locked folder name: for any request path
that equals no configured `folderName` — in particular a strict
descendant like `"F/sub"`, or any other spelling of a locked folder —
the route returns the directory listing of the resolved path for every
supplied PIN (including none), never the `locked` signal, so a locked
folder's contents are reachable through child-path listings without the
PIN. -/
theorem c10_lock_requires_exact_match (root : String) (cfg : Config) (fs : DirFs)
    (relPath target : String) (pin : Option String)
    (hsafe : safePath root relPath = .ok target)
    (hmiss : ∀ lf ∈ cfg.lockedFolders, lf.folderName ≠ relPath) :
    filesRoute root cfg fs relPath pin = listDir fs target relPath := by
  have hfind : cfg.lockedFolders.find? (fun f => f.folderName = relPath) = none :=
    List.find?_eq_none.mpr (fun x hx => by simpa using hmiss x hx)
  simp [filesRoute, hsafe, hfind]

/-- Witness for C10: folder `F` is locked with PIN `9999`, yet listing
`"F/sub"` with no PIN at all returns the full child listing. -/
theorem c10_lock_bypass_witness :
    cfgC10.lockedFolders = [⟨"F", "9999"⟩] ∧
    filesRoute "/data" cfgC10 fsC10 "F/sub" none =
      .ok [⟨"secret.txt", false, "F/sub/secret.txt", ".txt", "0 Bytes", "t"⟩] := by
  refine ⟨by decide, ?_⟩
  have h := c10_lock_requires_exact_match "/data" cfgC10 fsC10 "F/sub" "/data/F/sub" none
    (by decide) (by decide)
  exact h.trans (by decide)

end CloudBox
